import Mathlib

set_option maxRecDepth 8192

/-!
Verification development for the `svelte-ssr-cookies` repository.

The development shallowly embeds the three source files:
* `src/lib/schema.ts` (schema introspection),
* the client `Cookies` class and `useCookies` facade,
* `src/lib/server/index.ts` (`getCachedKeys`, `pickCookies`).

JavaScript values are embedded as an inductive JSON value type `Val`;
JavaScript objects (whose properties may hold `undefined`) are embedded as
association lists `JObj := List (String × Option Val)` where a stored
`none` models a property holding `undefined`, and a missing key models an
absent property (both read back as `undefined`, as in JavaScript).
External collaborators (the schema library, `JSON.parse`/`JSON.stringify`,
the cookie jar) enter as function parameters, exactly as the specification
treats them (opaque contracts).
-/

namespace SSRCookies

/-- JSON values (the data that flows through cookies: the output of
`JSON.parse` and the input of `JSON.stringify`). Numbers are embedded as
integers; no claim depends on float-specific behavior. -/
inductive Val : Type where
  | vNull : Val
  | vBool : Bool → Val
  | vNum : Int → Val
  | vStr : String → Val
  | vArr : List Val → Val
  | vObj : List (String × Val) → Val

/-- A JavaScript object: an association list from property names to either a
JSON value (`some v`) or the JavaScript `undefined` (`none`). -/
abbrev JObj := List (String × Option Val)

namespace JObj

/-- Property read `o[k]`: the stored value, or `none` (undefined) when the key
is absent or holds `undefined`. -/
def getProp (o : JObj) (k : String) : Option Val :=
  match o.find? (fun p => p.1 == k) with
  | some p => p.2
  | none => none

/-- `k in o`: whether the object has the key at all. -/
def hasKey (o : JObj) (k : String) : Bool :=
  o.any (fun p => p.1 == k)

/-- Property write `o[k] = v`: replace the binding if present, else append. -/
def setKey (o : JObj) (k : String) (v : Option Val) : JObj :=
  if o.any (fun p => p.1 == k) then
    o.map (fun p => if p.1 == k then (k, v) else p)
  else o ++ [(k, v)]

/-- Object spread `\x7b...a, ...b\x7d`: `b`'s properties override `a`'s. -/
def mergeObj (a b : JObj) : JObj :=
  b.foldl (fun acc p => setKey acc p.1 p.2) a

/-- `Object.keys`. -/
def keysOf (o : JObj) : List String := o.map Prod.fst

end JObj

section JObjLemmas

theorem getProp_setKey_self (o : JObj) (k : String) (v : Option Val) :
    JObj.getProp (JObj.setKey o k v) k = v := by
  unfold JObj.setKey
  split
  · rename_i h
    unfold JObj.getProp
    induction o with
    | nil => simp at h
    | cons p rest ih =>
      by_cases hp : p.1 == k
      · simp [List.find?, hp]
      · simp only [List.any_cons, hp, Bool.false_or] at h
        simp only [List.map_cons, hp, if_neg]
        rw [List.find?_cons_of_neg _ (by simpa using hp)]
        exact ih h
  · unfold JObj.getProp
    rename_i h
    induction o with
    | nil => simp [List.find?]
    | cons p rest ih =>
      simp only [List.any_cons, Bool.or_eq_true, not_or] at h
      simp only [List.cons_append]
      rw [List.find?_cons_of_neg _ (by simpa using h.1)]
      exact ih (by simpa using h.2)

theorem find?_key_cons_ne (p : String × Option Val) (l : JObj) (k' : String)
    (h : ¬(p.1 == k') = true) :
    List.find? (fun q => q.1 == k') (p :: l) = List.find? (fun q => q.1 == k') l :=
  List.find?_cons_of_neg _ h

theorem getProp_setKey_ne (o : JObj) (k k' : String) (v : Option Val)
    (hne : k' ≠ k) : JObj.getProp (JObj.setKey o k v) k' = JObj.getProp o k' := by
  have hkk' : ¬(((k, v) : String × Option Val).1 == k') = true := by
    simp only [beq_iff_eq]
    exact fun h => hne h.symm
  unfold JObj.setKey
  split <;> rename_i h <;> clear h <;> unfold JObj.getProp
  · induction o with
    | nil => simp
    | cons p rest ih =>
      by_cases hp : p.1 == k
      · have hpk : p.1 = k := by simpa using hp
        simp only [List.map_cons, hp, if_pos]
        rw [find?_key_cons_ne _ _ _ hkk',
          find?_key_cons_ne _ _ _ (by simp only [beq_iff_eq, hpk]; exact fun h => hne h.symm)]
        exact ih
      · simp only [List.map_cons, hp, if_neg]
        by_cases hq : p.1 == k'
        · simp [List.find?, hq]
        · rw [find?_key_cons_ne _ _ _ (by simpa using hq),
            find?_key_cons_ne _ _ _ (by simpa using hq)]
          exact ih
  · induction o with
    | nil =>
      simp only [List.nil_append]
      rw [find?_key_cons_ne _ _ _ hkk']
    | cons p rest ih =>
      by_cases hq : p.1 == k'
      · simp [List.find?, hq]
      · simp only [List.cons_append]
        rw [find?_key_cons_ne _ _ _ (by simpa using hq),
          find?_key_cons_ne _ _ _ (by simpa using hq)]
        exact ih

theorem hasKey_setKey_self (o : JObj) (k : String) (v : Option Val) :
    JObj.hasKey (JObj.setKey o k v) k = true := by
  unfold JObj.setKey JObj.hasKey
  split
  · rename_i h
    rw [List.any_eq_true] at h ⊢
    obtain ⟨p, hp, hpk⟩ := h
    exact ⟨(k, v), List.mem_map.2 ⟨p, hp, by simp [hpk]⟩, by simp⟩
  · simp

theorem keysOf_setKey (o : JObj) (k : String) (v : Option Val) :
    JObj.keysOf (JObj.setKey o k v) =
      if o.any (fun p => p.1 == k) then JObj.keysOf o else JObj.keysOf o ++ [k] := by
  unfold JObj.setKey JObj.keysOf
  split <;> rename_i h
  · simp only [h, if_pos, List.map_map]
    apply List.map_congr_left
    intro p _
    by_cases hp : p.1 == k
    · simp [Function.comp, hp]
      exact (by simpa using hp : p.1 = k).symm
    · simp [Function.comp, hp]
  · simp [h]

end JObjLemmas

section MergeFilterLemmas

theorem hasKey_cons (p : String × Option Val) (l : JObj) (k : String) :
    JObj.hasKey (p :: l) k = ((p.1 == k) || JObj.hasKey l k) := by
  simp [JObj.hasKey]

theorem getProp_cons_self (p : String × Option Val) (l : JObj) (k : String)
    (h : (p.1 == k) = true) : JObj.getProp (p :: l) k = p.2 := by
  simp [JObj.getProp, List.find?, h]

theorem getProp_cons_ne (p : String × Option Val) (l : JObj) (k : String)
    (h : ¬(p.1 == k) = true) : JObj.getProp (p :: l) k = JObj.getProp l k := by
  unfold JObj.getProp
  rw [find?_key_cons_ne _ _ _ h]

theorem hasKey_iff_mem_keysOf (o : JObj) (k : String) :
    JObj.hasKey o k = true ↔ k ∈ JObj.keysOf o := by
  simp [JObj.hasKey, JObj.keysOf, List.any_eq_true]

theorem getProp_mergeObj (a b : JObj) (k : String)
    (hnd : (JObj.keysOf b).Nodup) :
    JObj.getProp (JObj.mergeObj a b) k =
      if JObj.hasKey b k then JObj.getProp b k else JObj.getProp a k := by
  induction b generalizing a with
  | nil => simp [JObj.mergeObj, JObj.hasKey]
  | cons p b' ih =>
    simp only [JObj.keysOf, List.map_cons, List.nodup_cons] at hnd
    have step : JObj.mergeObj a (p :: b') = JObj.mergeObj (JObj.setKey a p.1 p.2) b' := by
      simp [JObj.mergeObj, List.foldl_cons]
    rw [step, ih _ hnd.2]
    by_cases hpk : p.1 == k
    · have hk : p.1 = k := by simpa using hpk
      have hb' : JObj.hasKey b' k = false := by
        rcases hb : JObj.hasKey b' k with _ | _
        · rfl
        · exact absurd ((hasKey_iff_mem_keysOf b' k).1 hb) (hk ▸ hnd.1)
      rw [hb']
      simp only [Bool.false_eq_true, if_false]
      rw [hasKey_cons, hpk, Bool.true_or, if_pos rfl,
        getProp_cons_self _ _ _ hpk, ← hk, getProp_setKey_self]
    · have hpk' : (p.1 == k) = false := by simpa using hpk
      rw [hasKey_cons, hpk', Bool.false_or, getProp_cons_ne _ _ _ hpk]
      by_cases hb : JObj.hasKey b' k = true
      · rw [hb]
        simp
      · simp only [Bool.not_eq_true] at hb
        rw [hb]
        simp only [Bool.false_eq_true, if_false]
        exact getProp_setKey_ne _ _ _ _ (fun h => hpk (by simp [h]))

theorem hasKey_filter_key (o : JObj) (f : String → Bool) (k : String) :
    JObj.hasKey (o.filter fun p => f p.1) k = (JObj.hasKey o k && f k) := by
  induction o with
  | nil => simp [JObj.hasKey]
  | cons p rest ih =>
    by_cases hpk : p.1 == k
    · have hk : p.1 = k := by simpa using hpk
      rcases hf : f p.1 with _ | _
      · rw [List.filter_cons_of_neg (by simpa using hf), ih, hasKey_cons, hpk]
        simp [← hk, hf]
      · rw [List.filter_cons_of_pos (by simpa using hf), hasKey_cons, hasKey_cons, hpk]
        simp [← hk, hf]
    · have hpk' : (p.1 == k) = false := by simpa using hpk
      rcases hf : f p.1 with _ | _
      · rw [List.filter_cons_of_neg (by simpa using hf), ih, hasKey_cons, hpk']
        simp
      · rw [List.filter_cons_of_pos (by simpa using hf), hasKey_cons, hpk', hasKey_cons, hpk']
        simp [ih]

theorem getProp_filter_key (o : JObj) (f : String → Bool) (k : String) :
    JObj.getProp (o.filter fun p => f p.1) k =
      if f k then JObj.getProp o k else none := by
  induction o with
  | nil => simp [JObj.getProp, List.find?]
  | cons p rest ih =>
    by_cases hpk : p.1 == k
    · have hk : p.1 = k := by simpa using hpk
      rcases hf : f p.1 with _ | _
      · rw [List.filter_cons_of_neg (by simpa using hf), ih]
        rw [hk] at hf
        simp [hf]
      · rw [List.filter_cons_of_pos (by simpa using hf),
          getProp_cons_self _ _ _ hpk, getProp_cons_self _ _ _ hpk]
        rw [hk] at hf
        simp [hf]
    · rcases hf : f p.1 with _ | _
      · rw [List.filter_cons_of_neg (by simpa using hf), ih]
        by_cases hfk : f k = true
        · simp [hfk, getProp_cons_ne _ _ _ hpk]
        · simp [hfk]
      · rw [List.filter_cons_of_pos (by simpa using hf),
          getProp_cons_ne _ _ _ hpk, ih, getProp_cons_ne _ _ _ hpk]

theorem keysOf_filter_nodup (o : JObj) (q : String × Option Val → Bool)
    (hnd : (JObj.keysOf o).Nodup) : (JObj.keysOf (o.filter q)).Nodup := by
  have hsub : List.Sublist (JObj.keysOf (o.filter q)) (JObj.keysOf o) :=
    List.Sublist.map Prod.fst (List.filter_sublist o)
  exact hnd.sublist hsub

end MergeFilterLemmas

/-!
## Structural deep equality (`dequal` from `dequal/lite`)

`#setValue` compares the current cache value with the incoming value using
`dequal` when either side is object-typed. `dequal/lite` compares primitives
with `===`, arrays by length and element-wise recursion, and plain objects by
key-count plus per-key recursion.
-/

mutual

def dequalV : Val → Val → Bool
  | .vNull, .vNull => true
  | .vBool a, .vBool b => a == b
  | .vNum a, .vNum b => a == b
  | .vStr a, .vStr b => a == b
  | .vArr as, .vArr bs => dequalL as bs
  | .vObj fa, .vObj fb => fa.length == fb.length && dequalF fa fb
  | _, _ => false

def dequalL : List Val → List Val → Bool
  | [], [] => true
  | a :: as, b :: bs => dequalV a b && dequalL as bs
  | _, _ => false

def dequalF : List (String × Val) → List (String × Val) → Bool
  | [], _ => true
  | (k, v) :: rest, fb =>
    (match fb.find? (fun p => p.1 == k) with
     | some p => dequalV v p.2
     | none => false) && dequalF rest fb

end

/-!
## Cookie-name encoding

`pickCookies` (`src/lib/server/index.ts`, lines 44-46) computes the transport
name of a schema key as

  `encodeURIComponent(key).replace(/%(2[346B]|5E|60|7C)/g, decodeURIComponent).replace(/[()]/g, escape)`

We embed `encodeURIComponent` (UTF-8 percent-encoding of every character
outside the unreserved set), the global regex replacement (a left-to-right
scan over three-character `%XY` matches), and the parenthesis legacy-escape.
-/

/-- The characters `encodeURIComponent` leaves unescaped:
`A-Z a-z 0-9 - _ . ! ~ * ' ( )` (codes given numerically). -/
def unreservedURI (c : Char) : Bool :=
  let n := c.toNat
  (48 ≤ n && n ≤ 57) || (65 ≤ n && n ≤ 90) || (97 ≤ n && n ≤ 122) ||
    n == 45 || n == 95 || n == 46 || n == 33 || n == 126 || n == 42 ||
    n == 39 || n == 40 || n == 41

/-- Uppercase hexadecimal digit, as produced by `encodeURIComponent`. -/
def hexDigit (n : Nat) : Char :=
  if n < 10 then Char.ofNat (48 + n) else Char.ofNat (55 + n)

/-- One percent-escaped byte, `%XY`. -/
def pctByte (b : Nat) : List Char :=
  ['%', hexDigit (b / 16), hexDigit (b % 16)]

/-- UTF-8 encoding of a Unicode code point, as `encodeURIComponent` uses. -/
def utf8Bytes (n : Nat) : List Nat :=
  if n < 128 then [n]
  else if n < 2048 then [192 + n / 64, 128 + n % 64]
  else if n < 65536 then [224 + n / 4096, 128 + n / 64 % 64, 128 + n % 64]
  else [240 + n / 262144, 128 + n / 4096 % 64, 128 + n / 64 % 64, 128 + n % 64]

/-- `encodeURIComponent` on a single character. -/
def encodeURIComponentChar (c : Char) : List Char :=
  if unreservedURI c then [c] else (utf8Bytes c.toNat).flatMap pctByte

/-- `encodeURIComponent` on a string (as a character list). -/
def encodeURIComponentL (s : List Char) : List Char :=
  s.flatMap encodeURIComponentChar

/-- The byte values whose escapes the source regex `%(2[346B]|5E|60|7C)`
decodes back: `0x23 0x24 0x26 0x2B 0x5E 0x60 0x7C`. -/
def inJsEscapeSet (n : Nat) : Bool :=
  n == 35 || n == 36 || n == 38 || n == 43 || n == 94 || n == 96 || n == 124

/-- The source regex alternatives, as a partial map from the two hex digits of
a `%XY` match to `decodeURIComponent` of the match. -/
def jsCookieEscapeSet (a b : Char) : Option Char :=
  if a == '2' && b == '3' then some '#'
  else if a == '2' && b == '4' then some '$'
  else if a == '2' && b == '6' then some '&'
  else if a == '2' && b == 'B' then some '+'
  else if a == '5' && b == 'E' then some '^'
  else if a == '6' && b == '0' then some (Char.ofNat 96)
  else if a == '7' && b == 'C' then some '|'
  else none

/-- The escape whitelist the claim asserts instead: hex escapes
`24 26 2B 3A 3C 3D 3E 3F 40`, i.e. the characters `$ & + : < = > ? @`. -/
def claimEscapeSet (a b : Char) : Option Char :=
  if a == '2' && b == '4' then some '$'
  else if a == '2' && b == '6' then some '&'
  else if a == '2' && b == 'B' then some '+'
  else if a == '3' && b == 'A' then some ':'
  else if a == '3' && b == 'C' then some '<'
  else if a == '3' && b == 'D' then some '='
  else if a == '3' && b == 'E' then some '>'
  else if a == '3' && b == 'F' then some '?'
  else if a == '4' && b == '0' then some '@'
  else none

/-- Global regex replacement `.replace(/%(XY|...)/g, decodeURIComponent)`:
scan left to right; at a `%XY` match for the given whitelist emit the decoded
character and continue after the match, otherwise move one character ahead. -/
def replaceEscapesWith (pat : Char → Char → Option Char) : List Char → List Char
  | [] => []
  | c :: a :: b :: rest2 =>
    if c == '%' then
      match pat a b with
      | some d => d :: replaceEscapesWith pat rest2
      | none => c :: replaceEscapesWith pat (a :: b :: rest2)
    else c :: replaceEscapesWith pat (a :: b :: rest2)
  | c :: rest => c :: replaceEscapesWith pat rest

/-- `.replace(/[()]/g, escape)` on a single character: the legacy `escape`
builtin turns `(` into `%28` and `)` into `%29`. -/
def escapeParen (c : Char) : List Char :=
  if c == '(' then ['%', '2', '8']
  else if c == ')' then ['%', '2', '9']
  else [c]

/-- `.replace(/[()]/g, escape)` on a string. -/
def replaceParens (s : List Char) : List Char :=
  s.flatMap escapeParen

/-- The transport name `pickCookies` reads a schema key under
(`src/lib/server/index.ts` lines 44-46). -/
def pickCookieName (key : List Char) : List Char :=
  replaceParens (replaceEscapesWith jsCookieEscapeSet (encodeURIComponentL key))

/-- Modelled from the spec: the name under which the Store persists a key.
`#setValue` calls `jsCookie.set(key, ...)` and the name conversion happens
inside the external `js-cookie` dependency, whose code is not under `src/`;
the spec (§6, cookie-name encoding rule) states that the Store's persistence
step applies exactly the same transform as the extraction filter. -/
def jsCookieWriteName (key : List Char) : List Char :=
  replaceParens (replaceEscapesWith jsCookieEscapeSet (encodeURIComponentL key))

/-- The name computation as the claim states it (whitelist
`24 26 2B 3A 3C 3D 3E 3F 40`), for comparison with the source's. -/
def claimCookieName (key : List Char) : List Char :=
  replaceParens (replaceEscapesWith claimEscapeSet (encodeURIComponentL key))

/-- Intermediate closed form: the string after `encodeURIComponent` plus the
decode-back pass, one character of the key at a time. -/
def midChar (c : Char) : List Char :=
  if unreservedURI c then [c]
  else if inJsEscapeSet c.toNat then [c]
  else (utf8Bytes c.toNat).flatMap pctByte

/-- Per-character closed form of the complete transport-name transform:
parentheses are legacy-escaped; other unreserved characters and the decoded
whitelist `# $ & + ^ `` |` (codes 23 24 26 2B 5E 60 7C) pass through; every
other character is UTF-8 percent-encoded. -/
def cookieNameChar (c : Char) : List Char :=
  if c.toNat == 40 then ['%', '2', '8']
  else if c.toNat == 41 then ['%', '2', '9']
  else if unreservedURI c then [c]
  else if inJsEscapeSet c.toNat then [c]
  else (utf8Bytes c.toNat).flatMap pctByte

section CookieNameLemmas

theorem rE_skip (pat : Char → Char → Option Char) (c : Char) (rest : List Char)
    (hc : ¬(c == '%') = true) :
    replaceEscapesWith pat (c :: rest) = c :: replaceEscapesWith pat rest := by
  cases rest with
  | nil => simp [replaceEscapesWith]
  | cons a t =>
    cases t with
    | nil => simp [replaceEscapesWith]
    | cons b r => simp [replaceEscapesWith, hc]

theorem rE_match (pat : Char → Char → Option Char) (a b d : Char) (rest : List Char)
    (h : pat a b = some d) :
    replaceEscapesWith pat ('%' :: a :: b :: rest) = d :: replaceEscapesWith pat rest := by
  simp [replaceEscapesWith, h]

theorem rE_nomatch (pat : Char → Char → Option Char) (a b : Char) (rest : List Char)
    (h : pat a b = none) :
    replaceEscapesWith pat ('%' :: a :: b :: rest) =
      '%' :: replaceEscapesWith pat (a :: b :: rest) := by
  simp [replaceEscapesWith, h]

theorem escapeTable (b : Nat) (hb : b < 256) :
    jsCookieEscapeSet (hexDigit (b / 16)) (hexDigit (b % 16)) =
      (if inJsEscapeSet b then some (Char.ofNat b) else none) := by
  revert hb
  revert b
  decide

theorem hexDigit_ne_pct (n : Nat) (h : n < 16) : ¬(hexDigit n == '%') = true := by
  revert h
  revert n
  decide

theorem hexDigit_ne_paren (n : Nat) (h : n < 16) :
    ¬(hexDigit n == '(') = true ∧ ¬(hexDigit n == ')') = true := by
  revert h
  revert n
  decide

theorem rE_pctByte (b : Nat) (rest : List Char) (hb : b < 256) :
    replaceEscapesWith jsCookieEscapeSet (pctByte b ++ rest) =
      (if inJsEscapeSet b then [Char.ofNat b] else pctByte b) ++
        replaceEscapesWith jsCookieEscapeSet rest := by
  unfold pctByte
  simp only [List.cons_append, List.nil_append]
  rcases h : inJsEscapeSet b with _ | _
  · have hp : jsCookieEscapeSet (hexDigit (b / 16)) (hexDigit (b % 16)) = none := by
      rw [escapeTable b hb, h]
      simp
    rw [rE_nomatch _ _ _ _ hp,
      rE_skip _ _ _ (hexDigit_ne_pct (b / 16) (by omega)),
      rE_skip _ _ _ (hexDigit_ne_pct (b % 16) (by omega))]
    simp
  · have hp : jsCookieEscapeSet (hexDigit (b / 16)) (hexDigit (b % 16)) =
        some (Char.ofNat b) := by
      rw [escapeTable b hb, h]
      simp
    rw [rE_match _ _ _ _ _ hp]
    simp

theorem rE_pct_if_false (b : Nat) (rest : List Char) (hb : b < 256)
    (h : inJsEscapeSet b = false) :
    replaceEscapesWith jsCookieEscapeSet (pctByte b ++ rest) =
      pctByte b ++ replaceEscapesWith jsCookieEscapeSet rest := by
  rw [rE_pctByte b rest hb, h]
  simp

theorem char_toNat_lt (c : Char) : c.toNat < 1114112 := by
  have h := c.valid
  rcases h with h | ⟨h1, h2⟩
  · exact Nat.lt_trans h (by norm_num)
  · exact h2

theorem utf8_hi_bytes (n : Nat) (h1 : 128 ≤ n) (h2 : n < 1114112) :
    ∀ b ∈ utf8Bytes n, 128 ≤ b ∧ b < 256 := by
  intro b hb
  unfold utf8Bytes at hb
  split_ifs at hb with ha hc hd
  · omega
  · simp only [List.mem_cons, List.not_mem_nil, or_false] at hb
    rcases hb with hb | hb <;> omega
  · simp only [List.mem_cons, List.not_mem_nil, or_false] at hb
    rcases hb with hb | hb | hb <;> omega
  · simp only [List.mem_cons, List.not_mem_nil, or_false] at hb
    rcases hb with hb | hb | hb | hb <;> omega

theorem utf8_bytes_lt256 (n : Nat) (h2 : n < 1114112) :
    ∀ b ∈ utf8Bytes n, b < 256 := by
  intro b hb
  unfold utf8Bytes at hb
  split_ifs at hb with ha hc hd
  · simp only [List.mem_cons, List.not_mem_nil, or_false] at hb
    omega
  · simp only [List.mem_cons, List.not_mem_nil, or_false] at hb
    rcases hb with hb | hb <;> omega
  · simp only [List.mem_cons, List.not_mem_nil, or_false] at hb
    rcases hb with hb | hb | hb <;> omega
  · simp only [List.mem_cons, List.not_mem_nil, or_false] at hb
    rcases hb with hb | hb | hb | hb <;> omega

theorem not_inJs_of_hi (b : Nat) (h : 128 ≤ b) : inJsEscapeSet b = false := by
  simp only [inJsEscapeSet, Bool.or_eq_false_iff, beq_eq_false_iff_ne]
  omega

theorem rE_bytes (bs : List Nat) (rest : List Char)
    (h : ∀ b ∈ bs, 128 ≤ b ∧ b < 256) :
    replaceEscapesWith jsCookieEscapeSet (bs.flatMap pctByte ++ rest) =
      bs.flatMap pctByte ++ replaceEscapesWith jsCookieEscapeSet rest := by
  induction bs with
  | nil => simp
  | cons b bs' ih =>
    have hb := h b (by simp)
    simp only [List.flatMap_cons, List.append_assoc]
    rw [rE_pctByte b _ hb.2, not_inJs_of_hi b hb.1]
    simp only [Bool.false_eq_true, if_false, List.append_assoc]
    rw [ih (fun x hx => h x (by simp [hx]))]

theorem unreserved_ne_pct (c : Char) (h : unreservedURI c = true) :
    ¬(c == '%') = true := by
  intro heq
  have hc : c = '%' := by simpa using heq
  rw [hc] at h
  simp [unreservedURI] at h

theorem rE_encodeChar (c : Char) (rest : List Char) :
    replaceEscapesWith jsCookieEscapeSet (encodeURIComponentChar c ++ rest) =
      midChar c ++ replaceEscapesWith jsCookieEscapeSet rest := by
  by_cases hu : unreservedURI c = true
  · simp only [encodeURIComponentChar, midChar, hu, if_pos, List.cons_append,
      List.nil_append]
    exact rE_skip _ _ _ (unreserved_ne_pct c hu)
  · simp only [encodeURIComponentChar, midChar, hu, Bool.false_eq_true, if_false]
    by_cases h1 : c.toNat < 128
    · have hbytes : utf8Bytes c.toNat = [c.toNat] := by simp [utf8Bytes, h1]
      rw [hbytes]
      simp only [List.flatMap_cons, List.flatMap_nil, List.append_nil]
      rw [rE_pctByte c.toNat rest (by omega)]
      rcases h : inJsEscapeSet c.toNat with _ | _
      · simp [h]
      · simp [h, Char.ofNat_toNat]
    · have hhi : 128 ≤ c.toNat := by omega
      rw [not_inJs_of_hi _ hhi]
      simp only [Bool.false_eq_true, if_false]
      exact rE_bytes _ _ (utf8_hi_bytes c.toNat hhi (char_toNat_lt c))

theorem rE_encodeL (key : List Char) :
    replaceEscapesWith jsCookieEscapeSet (encodeURIComponentL key) =
      key.flatMap midChar := by
  induction key with
  | nil => simp [encodeURIComponentL, replaceEscapesWith]
  | cons c t ih =>
    simp only [encodeURIComponentL, List.flatMap_cons] at *
    rw [rE_encodeChar c _, ih]

theorem replaceParens_append (x y : List Char) :
    replaceParens (x ++ y) = replaceParens x ++ replaceParens y := by
  simp [replaceParens]

theorem escapeParen_id (c : Char) (h1 : (c == '(') = false) (h2 : (c == ')') = false) :
    escapeParen c = [c] := by
  unfold escapeParen
  rw [h1, h2]
  simp

theorem beq_lparen_false (c : Char) (h : c.toNat ≠ 40) : (c == '(') = false := by
  simp only [beq_eq_false_iff_ne]
  intro he
  exact h (by rw [he]; decide)

theorem beq_rparen_false (c : Char) (h : c.toNat ≠ 41) : (c == ')') = false := by
  simp only [beq_eq_false_iff_ne]
  intro he
  exact h (by rw [he]; decide)

theorem replaceParens_pctByte (b : Nat) (hb : b < 256) :
    replaceParens (pctByte b) = pctByte b := by
  have h1 := hexDigit_ne_paren (b / 16) (by omega)
  have h2 := hexDigit_ne_paren (b % 16) (by omega)
  simp only [replaceParens, pctByte, List.flatMap_cons, List.flatMap_nil,
    List.append_nil]
  rw [escapeParen_id '%' (by decide) (by decide),
    escapeParen_id _ (by simpa using h1.1) (by simpa using h1.2),
    escapeParen_id _ (by simpa using h2.1) (by simpa using h2.2)]
  simp

theorem replaceParens_bytes (bs : List Nat) (h : ∀ b ∈ bs, b < 256) :
    replaceParens (bs.flatMap pctByte) = bs.flatMap pctByte := by
  induction bs with
  | nil => simp [replaceParens]
  | cons b bs' ih =>
    rw [List.flatMap_cons, replaceParens_append, replaceParens_pctByte b (h b (by simp)),
      ih (fun x hx => h x (by simp [hx]))]

theorem char_eq_of_toNat (c : Char) (n : Nat) (h : c.toNat = n) : c = Char.ofNat n := by
  rw [← h, Char.ofNat_toNat]

theorem replaceParens_midChar (c : Char) : replaceParens (midChar c) = cookieNameChar c := by
  unfold midChar cookieNameChar
  by_cases h40 : c.toNat = 40
  · have hc : c = Char.ofNat 40 := char_eq_of_toNat c 40 h40
    subst hc
    decide
  · by_cases h41 : c.toNat = 41
    · have hc : c = Char.ofNat 41 := char_eq_of_toNat c 41 h41
      subst hc
      decide
    · have hb40 : (c.toNat == 40) = false := by simpa using h40
      have hb41 : (c.toNat == 41) = false := by simpa using h41
      rw [hb40, hb41]
      simp only [Bool.false_eq_true, if_false]
      by_cases hu : unreservedURI c = true
      · rw [hu]
        simp only [if_pos]
        simp only [replaceParens, List.flatMap_cons, List.flatMap_nil, List.append_nil]
        rw [escapeParen_id c (beq_lparen_false c h40) (beq_rparen_false c h41)]
      · have hu' : unreservedURI c = false := by simpa using hu
        rw [hu']
        simp only [Bool.false_eq_true, if_false]
        rcases hj : inJsEscapeSet c.toNat with _ | _
        · simp only [Bool.false_eq_true, if_false]
          exact replaceParens_bytes _ (utf8_bytes_lt256 c.toNat (char_toNat_lt c))
        · simp only [if_pos]
          simp only [replaceParens, List.flatMap_cons, List.flatMap_nil, List.append_nil]
          rw [escapeParen_id c (beq_lparen_false c h40) (beq_rparen_false c h41)]

theorem replaceParens_flatMap (l : List Char) (f : Char → List Char) :
    replaceParens (l.flatMap f) = l.flatMap (fun c => replaceParens (f c)) := by
  induction l with
  | nil => simp [replaceParens]
  | cons c t ih =>
    rw [List.flatMap_cons, replaceParens_append, ih, List.flatMap_cons]

end CookieNameLemmas

/-!
## Schema contract, store state and the read/write pipeline

`src/lib/schema.ts`. A schema is consumed only through its synchronous
`validate(candidate) -> Result` contract; the Standard Schema result is the
tagged union success/failure, and a `Promise` result (asynchronous
validation) is the third possibility the code tests for on the read path.
-/

/-- One issue of a failed validation: `{path, message}`, with an optional path
(the code guards `issue.path?.includes(k)`). -/
structure Issue where
  path : Option (List String)
  message : String

/-- Result of `schema['~standard'].validate(candidate)`: success (an object
holding a value per key), failure (a list of issues), or a pending `Promise`
(asynchronous validation). -/
inductive VRes where
  | success (value : JObj)
  | failure (issues : List Issue)
  | pending

/-- The environment of one `Cookies` store instance: the schema's validate
function, the codec-encoder map extracted from the schema's (opaque) shape
metadata, and the `JSON.stringify` builtin. An encoder result of `none`
models the encoder throwing (the code catches, logs, and falls back). -/
structure StoreCfg where
  validate : JObj → VRes
  encoders : String → Option (Val → Option Val)
  stringify : Val → String

/-- `extractSchemaInfo(schema).keys` (`src/lib/schema.ts` lines 49-57):
validate an empty candidate; on a result carrying a `value`, its key set,
else the empty list. -/
def extractSchemaInfoKeys (validate : JObj → VRes) : List String :=
  match validate [] with
  | .success v => JObj.keysOf v
  | _ => []

/-- `getCachedKeys` (`src/lib/server/index.ts` lines 8-16), without the
per-identity `WeakMap` memoization (pure caching, semantically the
uncached computation). -/
def getCachedKeysModel (validate : JObj → VRes) : List String :=
  match validate [] with
  | .success v => JObj.keysOf v
  | _ => []

/-- The string-keyed properties of `Object.prototype` (ES2023): what the
`in` operator finds on every plain object beyond its own keys. -/
def objectPrototypeKeys : List String :=
  ["constructor", "hasOwnProperty", "isPrototypeOf", "propertyIsEnumerable",
   "toLocaleString", "toString", "valueOf", "__proto__",
   "__defineGetter__", "__defineSetter__", "__lookupGetter__", "__lookupSetter__"]

/-- `has(key)` (`src/lib/schema.ts` lines 169-171):
`key in this.#schemaShape`, where `#schemaShape` is a plain object (built by
`reduce` from `extractSchemaInfo(schema).keys`, lines 107-113) whose
prototype is `Object.prototype`. The `in` operator consults the prototype
chain, so besides the schema keys every `Object.prototype` property name
(`toString`, `valueOf`, ...) is also reported as present. -/
def storeHas (cfg : StoreCfg) (k : String) : Bool :=
  (extractSchemaInfoKeys cfg.validate).contains k || objectPrototypeKeys.contains k

/-- `typeof x === 'object'` for a JSON value (`null`, arrays and objects). -/
def typeofIsObject : Val → Bool
  | .vNull => true
  | .vArr _ => true
  | .vObj _ => true
  | _ => false

/-- The `isPrimitive` test of `#setValue` (lines 228-232): both sides have
non-object `typeof` and neither is `null` (an absent/`undefined` current
value has `typeof 'undefined'` and is `!== null`). -/
def isPrimitivePair (cur : Option Val) (v : Val) : Bool :=
  (match cur with
   | none => true
   | some c => !typeofIsObject c) &&
  !typeofIsObject v &&
  (match cur with
   | some .vNull => false
   | _ => true) &&
  (match v with
   | .vNull => false
   | _ => true)

/-- `currentValue === value` as used under the `isPrimitive` guard: strict
equality on primitives; `undefined === v` is false for every JSON value. -/
def strictEqJS (cur : Option Val) (v : Val) : Bool :=
  match cur, v with
  | some .vNull, .vNull => true
  | some (.vBool a), .vBool b => a == b
  | some (.vNum a), .vNum b => a == b
  | some (.vStr a), .vStr b => a == b
  | _, _ => false

/-- The equality suppression test of `#setValue` line 234:
`isPrimitive ? currentValue === value : dequal(currentValue, value)`. -/
def eqCheckJS (cur : Option Val) (v : Val) : Bool :=
  if isPrimitivePair cur v then strictEqJS cur v
  else
    match cur with
    | some c => dequalV c v
    | none => false

/-- Lines 236-244 of `#setValue`: run the codec encoder when one is
registered; a throwing encoder (modelled by `none`) is logged and the
unencoded value is kept. -/
def encodeForValidation (cfg : StoreCfg) (k : String) (v : Val) : Val :=
  match cfg.encoders k with
  | none => v
  | some f =>
    match f v with
    | some w => w
    | none => v

/-- The `defaults` of the read-path recovery: validate an empty candidate
and use its value, or an empty object when that validation does not carry
a value. -/
def defaultsOf (cfg : StoreCfg) : JObj :=
  match cfg.validate [] with
  | .success d => d
  | _ => []

/-- Whether some issue's path references key `k`
(`issue.path?.includes(k)`; an absent path references nothing). -/
def issuesReference (iss : List Issue) (k : String) : Bool :=
  iss.any (fun i => (i.path.getD []).contains k)

/-- `#getTypedValue` (`src/lib/schema.ts` lines 181-210): validate the whole
cache; a `Promise` result throws; on success return `result.value[key]`; on
failure merge defaults with the cache entries not referenced by any issue
path and read the key from the merge. -/
def getTypedValue (cfg : StoreCfg) (cache : JObj) (k : String) :
    Except String (Option Val) :=
  match cfg.validate cache with
  | .pending => .error "Async validation not supported"
  | .success v => .ok (JObj.getProp v k)
  | .failure issues =>
    let defaults := defaultsOf cfg
    let validParams := cache.filter (fun p => !issuesReference issues p.1)
    .ok (JObj.getProp (JObj.mergeObj defaults validParams) k)

/-- Cookie attributes (`expires`, `path`, `domain`, `secure`, `sameSite`),
passed through unmodified to the transport. -/
structure CookieAttrs where
  expires : Option Int := none
  path : Option String := none
  domain : Option String := none
  secure : Option Bool := none
  sameSite : Option String := none

/-- Observable outcome of one `#setValue` call: the new cache, the transport
writes issued (name, serialized value, attributes), and whether the reactive
cache was mutated (the notification contract). -/
structure SetResult where
  cache : JObj
  writes : List (String × String × Option CookieAttrs)
  notified : Bool

/-- `#setValue` (`src/lib/schema.ts` lines 222-254). The `Except` codomain
records that the JavaScript method could raise; no path of the body does.
A validation result without a `value` field (failure or `Promise`) skips the
persistence block. -/
def setValue (cfg : StoreCfg) (cache : JObj) (k : String) (v : Val)
    (opts : Option CookieAttrs) : Except String SetResult :=
  if !storeHas cfg k then .ok ⟨cache, [], false⟩
  else
    let currentValue := JObj.getProp cache k
    if eqCheckJS currentValue v then .ok ⟨cache, [], false⟩
    else
      let valueForValidation := encodeForValidation cfg k v
      let newParams := JObj.setKey cache k (some valueForValidation)
      match cfg.validate newParams with
      | .success rv =>
        .ok ⟨JObj.setKey cache k (JObj.getProp rv k),
          [(k, cfg.stringify v, opts)], true⟩
      | _ => .ok ⟨cache, [], false⟩

/-- `set(key, value)` (lines 136-141): the write pipeline with default
attributes. -/
def storeSet (cfg : StoreCfg) (cache : JObj) (k : String) (v : Val) :
    Except String SetResult :=
  setValue cfg cache k v none

/-- `update(key, value, options)` (lines 149-155): the write pipeline with
explicit attributes. -/
def storeUpdate (cfg : StoreCfg) (cache : JObj) (k : String) (v : Val)
    (opts : Option CookieAttrs) : Except String SetResult :=
  setValue cfg cache k v opts

/-- Two consecutive `set(k, v)` calls, chaining the cache. -/
def setTwice (cfg : StoreCfg) (cache : JObj) (k : String) (v : Val) :
    Except String (SetResult × SetResult) :=
  match storeSet cfg cache k v with
  | .error e => .error e
  | .ok r1 =>
    match storeSet cfg r1.cache k v with
    | .error e => .error e
    | .ok r2 => .ok (r1, r2)

/-- Total transport writes performed by two consecutive `set(k, v)` calls. -/
def writesOfSetTwice (cfg : StoreCfg) (cache : JObj) (k : String) (v : Val) : Nat :=
  match setTwice cfg cache k v with
  | .ok p => p.1.writes.length + p.2.writes.length
  | .error _ => 0

/-- Total notifications fired by two consecutive `set(k, v)` calls. -/
def notifsOfSetTwice (cfg : StoreCfg) (cache : JObj) (k : String) (v : Val) : Nat :=
  match setTwice cfg cache k v with
  | .ok p => (if p.1.notified then 1 else 0) + (if p.2.notified then 1 else 0)
  | .error _ => 0

/-- Run a sequence of `set`/`update` calls against the store, carrying the
cache (an erroring call, which never happens, would leave it unchanged). -/
def applyOps (cfg : StoreCfg) (cache : JObj)
    (ops : List (String × Val × Option CookieAttrs)) : JObj :=
  ops.foldl
    (fun st op =>
      match setValue cfg st op.1 op.2.1 op.2.2 with
      | .ok r => r.cache
      | .error _ => st)
    cache

/-!
## Server-side extraction (`pickCookies`, `src/lib/server/index.ts` 35-59)

The jar (`cookies.get` with its options already applied) and the
`JSON.parse` builtin (returning `none` where `JSON.parse` would throw)
are opaque parameters.
-/

/-- The loop body of `pickCookies`: for each schema key, read the jar under
the encoded name, skip absent cookies, parse, skip malformed JSON, else
store the parsed value. -/
def pickGo (parse : String → Option Val) (jar : List Char → Option String) :
    List String → JObj → JObj
  | [], acc => acc
  | k :: rest, acc =>
    match jar (pickCookieName k.toList) with
    | none => pickGo parse jar rest acc
    | some raw =>
      match parse raw with
      | some v => pickGo parse jar rest (JObj.setKey acc k (some v))
      | none => pickGo parse jar rest acc

/-- `pickCookies(cookies, schema, opts)`: filter the jar down to the
schema-defined keys with valid JSON values. -/
def pickCookies (parse : String → Option Val) (jar : List Char → Option String)
    (validate : JObj → VRes) : JObj :=
  pickGo parse jar (getCachedKeysModel validate) []

/-!
## The `useCookies` facade (`src/lib/schema.ts` lines 312-348)
-/

/-- Outcome of a property read through the facade proxy's `get` trap. -/
inductive FacadeRead where
  | updateFn
  | cookieValue (r : Except String (Option Val))
  | reflected

/-- Outcome of a property write through the facade proxy's `set` trap. -/
inductive FacadeWrite where
  | storeWrite (r : Except String SetResult)
  | reflected

/-- The proxy `get` trap (lines 319-335): the reserved name `update` is
answered first with the attribute-aware update function; then schema keys
route to `target.get`; anything else falls through to `Reflect.get`. -/
def facadeGet (cfg : StoreCfg) (cache : JObj) (prop : String) : FacadeRead :=
  if prop == "update" then .updateFn
  else if storeHas cfg prop then .cookieValue (getTypedValue cfg cache prop)
  else .reflected

/-- The proxy `set` trap (lines 337-344): schema keys route to `target.set`;
anything else falls through to `Reflect.set`. -/
def facadeSetProp (cfg : StoreCfg) (cache : JObj) (prop : String) (v : Val) :
    FacadeWrite :=
  if storeHas cfg prop then .storeWrite (storeSet cfg cache prop v)
  else .reflected

/-!
## Write-pipeline lemmas
-/

section WriteLemmas

theorem setValue_nokey (cfg : StoreCfg) (st : JObj) (k : String) (v : Val)
    (opts : Option CookieAttrs) (hhas : storeHas cfg k = false) :
    setValue cfg st k v opts = .ok ⟨st, [], false⟩ := by
  simp [setValue, hhas]

theorem setValue_eqskip (cfg : StoreCfg) (st : JObj) (k : String) (v : Val)
    (opts : Option CookieAttrs) (heq : eqCheckJS (JObj.getProp st k) v = true) :
    setValue cfg st k v opts = .ok ⟨st, [], false⟩ := by
  unfold setValue
  rcases hh : storeHas cfg k with _ | _
  · simp [hh]
  · simp [hh, heq]

theorem setValue_success (cfg : StoreCfg) (st : JObj) (k : String) (v : Val)
    (opts : Option CookieAttrs) (rv : JObj)
    (hhas : storeHas cfg k = true)
    (hneq : eqCheckJS (JObj.getProp st k) v = false)
    (hval : cfg.validate (JObj.setKey st k (some (encodeForValidation cfg k v))) =
      .success rv) :
    setValue cfg st k v opts =
      .ok ⟨JObj.setKey st k (JObj.getProp rv k), [(k, cfg.stringify v, opts)], true⟩ := by
  simp [setValue, hhas, hneq, hval]

theorem setValue_nosuccess (cfg : StoreCfg) (st : JObj) (k : String) (v : Val)
    (opts : Option CookieAttrs)
    (hhas : storeHas cfg k = true)
    (hneq : eqCheckJS (JObj.getProp st k) v = false)
    (hnv : ∀ rv, cfg.validate (JObj.setKey st k (some (encodeForValidation cfg k v))) ≠
      .success rv) :
    setValue cfg st k v opts = .ok ⟨st, [], false⟩ := by
  cases hres : cfg.validate (JObj.setKey st k (some (encodeForValidation cfg k v))) with
  | success rv => exact absurd hres (hnv rv)
  | failure iss => simp [setValue, hhas, hneq, hres]
  | pending => simp [setValue, hhas, hneq, hres]

theorem setValue_total (cfg : StoreCfg) (st : JObj) (k : String) (v : Val)
    (opts : Option CookieAttrs) : ∃ r, setValue cfg st k v opts = .ok r := by
  rcases hh : storeHas cfg k with _ | _
  · exact ⟨_, setValue_nokey cfg st k v opts hh⟩
  · rcases he : eqCheckJS (JObj.getProp st k) v with _ | _
    · cases hres : cfg.validate (JObj.setKey st k (some (encodeForValidation cfg k v))) with
      | success rv => exact ⟨_, setValue_success cfg st k v opts rv hh he hres⟩
      | failure iss => exact ⟨⟨st, [], false⟩, by simp [setValue, hh, he, hres]⟩
      | pending => exact ⟨⟨st, [], false⟩, by simp [setValue, hh, he, hres]⟩
    · exact ⟨_, setValue_eqskip cfg st k v opts he⟩

theorem setValue_cache_keys (cfg : StoreCfg) (st : JObj) (k : String) (v : Val)
    (opts : Option CookieAttrs) (r : SetResult)
    (h : setValue cfg st k v opts = .ok r) :
    ∀ k', k' ∈ JObj.keysOf r.cache →
      k' ∈ JObj.keysOf st ∨ (k' = k ∧ storeHas cfg k = true) := by
  intro k' hk'
  rcases hh : storeHas cfg k with _ | _
  · rw [setValue_nokey cfg st k v opts hh] at h
    cases h
    exact Or.inl hk'
  · rcases he : eqCheckJS (JObj.getProp st k) v with _ | _
    · cases hres : cfg.validate (JObj.setKey st k (some (encodeForValidation cfg k v))) with
      | success rv =>
        rw [setValue_success cfg st k v opts rv hh he hres] at h
        cases h
        simp only [keysOf_setKey] at hk'
        rcases hsplit : st.any (fun p => p.1 == k) with _ | _
        · rw [hsplit] at hk'
          simp only [Bool.false_eq_true, if_false, List.mem_append,
            List.mem_singleton] at hk'
          rcases hk' with hk' | hk'
          · exact Or.inl hk'
          · exact Or.inr ⟨hk', rfl⟩
        · rw [hsplit] at hk'
          simp only [if_pos] at hk'
          exact Or.inl hk'
      | failure iss =>
        rw [setValue_nosuccess cfg st k v opts hh he
          (fun rv hc => by rw [hres] at hc; exact VRes.noConfusion hc)] at h
        cases h
        exact Or.inl hk'
      | pending =>
        rw [setValue_nosuccess cfg st k v opts hh he
          (fun rv hc => by rw [hres] at hc; exact VRes.noConfusion hc)] at h
        cases h
        exact Or.inl hk'
    · rw [setValue_eqskip cfg st k v opts he] at h
      cases h
      exact Or.inl hk'

end WriteLemmas

/-!
## Extraction-loop lemmas
-/

section PickLemmas

theorem hasKey_setKey_ne (o : JObj) (k k' : String) (v : Option Val)
    (hne : k' ≠ k) : JObj.hasKey (JObj.setKey o k v) k' = JObj.hasKey o k' := by
  have hkv : (((k, v) : String × Option Val).1 == k') = false := by
    simp only [beq_eq_false_iff_ne]
    exact fun h => hne h.symm
  unfold JObj.setKey JObj.hasKey
  split <;> rename_i h <;> clear h
  · induction o with
    | nil => simp
    | cons p rest ih =>
      simp only [List.map_cons, List.any_cons]
      rw [ih]
      congr 1
      by_cases hp : p.1 == k
      · have hpk : p.1 = k := by simpa using hp
        rw [if_pos hp]
        show (((k, v) : String × Option Val).1 == k') = (p.1 == k')
        rw [hkv]
        rw [show p.1 = k from hpk]
        have : (k == k') = false := by simpa using hkv
        rw [this]
      · rw [if_neg hp]
  · simp only [List.any_append, List.any_cons, List.any_nil]
    simp [hkv]

theorem getProp_pickGo (parse : String → Option Val) (jar : List Char → Option String)
    (keys : List String) (acc : JObj) (k : String) :
    JObj.getProp (pickGo parse jar keys acc) k =
      if (keys.contains k && ((jar (pickCookieName k.toList)).bind parse).isSome) = true
      then (jar (pickCookieName k.toList)).bind parse
      else JObj.getProp acc k := by
  induction keys generalizing acc with
  | nil => simp [pickGo]
  | cons k0 rest ih =>
    by_cases hk : k = k0
    · subst hk
      cases hj : jar (pickCookieName k.toList) with
      | none =>
        simp only [pickGo, hj]
        rw [ih, hj]
        simp
      | some raw =>
        cases hp : parse raw with
        | none =>
          simp only [pickGo, hj, hp]
          rw [ih, hj]
          simp [hp]
        | some v =>
          simp only [pickGo, hj, hp]
          rw [ih, hj]
          simp [hp, getProp_setKey_self, List.contains_cons]
    · have hcontains : ((k0 :: rest).contains k) = rest.contains k := by
        simp [List.contains_cons, hk]
      cases hj : jar (pickCookieName k0.toList) with
      | none =>
        simp only [pickGo, hj]
        rw [ih, hcontains]
      | some raw =>
        cases hp : parse raw with
        | none =>
          simp only [pickGo, hj, hp]
          rw [ih, hcontains]
        | some v =>
          simp only [pickGo, hj, hp]
          rw [ih, getProp_setKey_ne acc k0 k (some v) hk, hcontains]

theorem hasKey_pickGo (parse : String → Option Val) (jar : List Char → Option String)
    (keys : List String) (acc : JObj) (k : String) :
    JObj.hasKey (pickGo parse jar keys acc) k =
      ((keys.contains k && ((jar (pickCookieName k.toList)).bind parse).isSome) ||
        JObj.hasKey acc k) := by
  induction keys generalizing acc with
  | nil => simp [pickGo]
  | cons k0 rest ih =>
    by_cases hk : k = k0
    · subst hk
      cases hj : jar (pickCookieName k.toList) with
      | none =>
        simp only [pickGo, hj]
        rw [ih, hj]
        simp
      | some raw =>
        cases hp : parse raw with
        | none =>
          simp only [pickGo, hj, hp]
          rw [ih, hj]
          simp [hp]
        | some v =>
          simp only [pickGo, hj, hp]
          rw [ih, hj]
          simp [hp, hasKey_setKey_self, List.contains_cons]
    · have hcontains : ((k0 :: rest).contains k) = rest.contains k := by
        simp [List.contains_cons, hk]
      cases hj : jar (pickCookieName k0.toList) with
      | none =>
        simp only [pickGo, hj]
        rw [ih, hcontains]
      | some raw =>
        cases hp : parse raw with
        | none =>
          simp only [pickGo, hj, hp]
          rw [ih, hcontains]
        | some v =>
          simp only [pickGo, hj, hp]
          rw [ih, hasKey_setKey_ne acc k0 k (some v) hk, hcontains]

end PickLemmas

/-!
## Concrete schema instances

Closed instances used by counterexamples and witnesses. Each `validate`
function is a concrete Standard-Schema-style validator; `stringifyLite`
stands in for the `JSON.stringify` builtin on the values these instances
exercise.
-/

/-- A concrete serializer standing in for `JSON.stringify` in the closed
instances below. -/
def stringifyLite : Val → String
  | .vNull => "null"
  | .vBool true => "true"
  | .vBool false => "false"
  | .vNum n => toString n
  | .vStr s => s
  | _ => "value"

/-- Validator of the spec scenario schema `state: boolean, default true`. -/
def validateBool : JObj → VRes := fun o =>
  match JObj.getProp o "state" with
  | none => .success [("state", some (.vBool true))]
  | some (.vBool b) => .success [("state", some (.vBool b))]
  | some _ => .failure [⟨some ["state"], "expected boolean"⟩]

/-- Store over the boolean schema. -/
def cfgB : StoreCfg := ⟨validateBool, fun _ => none, stringifyLite⟩

/-- Cache holding `state = true`. -/
def cB : JObj := [("state", some (Val.vBool true))]

/-- Cache holding a non-boolean `state`, failing validation. -/
def cBbad : JObj := [("state", some (Val.vNum 9))]

/-- A transforming schema: validation always maps key `k` to the number 2
(a Standard Schema validator may transform, e.g. a zod `.transform`). -/
def cfgT : StoreCfg :=
  ⟨fun o => .success (JObj.setKey o "k" (some (Val.vNum 2))), fun _ => none, stringifyLite⟩

/-- Cache holding `k = 0` for the transforming schema. -/
def cT : JObj := [("k", some (Val.vNum 0))]

/-- A schema whose validation of any non-empty candidate is a pending
`Promise` (asynchronous validation), while the empty candidate still
yields defaults so that `k` is a schema key. -/
def cfgP : StoreCfg :=
  ⟨fun o => if o.isEmpty then .success [("k", some (Val.vNum 0))] else .pending,
    fun _ => none, stringifyLite⟩

/-- Cache holding `k = 0` for the pending schema. -/
def cP : JObj := [("k", some (Val.vNum 0))]

/-- An identity-like validator over the single key `k` with default 0. -/
def validateK : JObj → VRes := fun o =>
  match JObj.getProp o "k" with
  | some w => .success [("k", some w)]
  | none => .success [("k", some (Val.vNum 0))]

/-- Store over `validateK` with a codec encoder on `k` that encodes numbers
to their decimal strings. -/
def cfgEnc : StoreCfg :=
  ⟨validateK,
    fun k => if k == "k" then
      some (fun v => match v with
        | .vNum n => some (.vStr (toString n))
        | _ => none)
    else none,
    stringifyLite⟩

/-- Cache holding `k = 0` for the encoder store. -/
def cEnc : JObj := [("k", some (Val.vNum 0))]

/-- A schema containing a key literally named `update`. -/
def cfgU : StoreCfg :=
  ⟨fun o =>
    match JObj.getProp o "update" with
    | some w => .success [("update", some w)]
    | none => .success [("update", some (Val.vNum 0))],
    fun _ => none, stringifyLite⟩

/-- Cache holding `update = 0`. -/
def cU : JObj := [("update", some (Val.vNum 0))]

/-!
## Helper restatements of the filter lemmas at the read path's predicate
-/

theorem hasKey_filter_issues (o : JObj) (iss : List Issue) (k : String) :
    JObj.hasKey (o.filter fun p => !issuesReference iss p.1) k =
      (JObj.hasKey o k && !issuesReference iss k) :=
  hasKey_filter_key o (fun s => !issuesReference iss s) k

theorem getProp_filter_issues (o : JObj) (iss : List Issue) (k : String) :
    JObj.getProp (o.filter fun p => !issuesReference iss p.1) k =
      if !issuesReference iss k then JObj.getProp o k else none :=
  getProp_filter_key o (fun s => !issuesReference iss s) k

theorem keysOf_filter_issues_nodup (o : JObj) (iss : List Issue)
    (hnd : (JObj.keysOf o).Nodup) :
    (JObj.keysOf (o.filter fun p => !issuesReference iss p.1)).Nodup :=
  keysOf_filter_nodup o (fun p => !issuesReference iss p.1) hnd

/-!
## Claim theorems
-/

/-- C1 counterexample: the schema key `:` refutes the claimed whitelist. The
code leaves `:` percent-encoded (`%3A`, since `3A` is not in the regex
`%(2[346B]|5E|60|7C)`), while the name computed per the claim's whitelist
decodes `%3A` back to `:`. -/
theorem claim1_counterexample :
    pickCookieName (String.toList ":") ≠ claimCookieName (String.toList ":") ∧
    pickCookieName (String.toList ":") = ['%', '3', 'A'] ∧
    claimCookieName (String.toList ":") = [':'] := by
  refine ⟨by decide, by decide, by decide⟩

/-- C1 (amended): for every key, the transport name computed by `pickCookies`
is: percent-encode the key, decode back exactly the escapes
`23 24 26 2B 5E 60 7C` (the characters `# $ & + ^ `` |`), then replace `(`
and `)` with their legacy-escaped forms — stated as the per-character closed
form `cookieNameChar` — and it equals the name under which the Store
persists the key (the js-cookie write converter, modelled from the spec). -/
theorem claim1_amended (key : List Char) :
    pickCookieName key = key.flatMap cookieNameChar ∧
    pickCookieName key = jsCookieWriteName key := by
  constructor
  · unfold pickCookieName
    rw [rE_encodeL, replaceParens_flatMap,
      show (fun c => replaceParens (midChar c)) = cookieNameChar from
        funext replaceParens_midChar]
  · rfl

/-- C2: `get(k)` validates the whole cache; on success it returns
`result.value[k]`; on failure it returns `(\x7b...defaults, ...validEntries\x7d)[k]`
where `defaults` comes from validating an empty candidate and `validEntries`
keeps exactly the cache entries whose key no issue path references; and it
never throws on a success or failure result (only a pending result is
fatal, which is not a data-shape issue). The cache is a JavaScript object,
so its keys are assumed duplicate-free. -/
theorem claim2_read_path (cfg : StoreCfg) (st : JObj) (k : String)
    (hnd : (JObj.keysOf st).Nodup) :
    (∀ v, cfg.validate st = .success v →
      getTypedValue cfg st k = .ok (JObj.getProp v k)) ∧
    (∀ iss, cfg.validate st = .failure iss →
      getTypedValue cfg st k = .ok (
        if JObj.hasKey st k = true ∧ issuesReference iss k = false
        then JObj.getProp st k
        else JObj.getProp (defaultsOf cfg) k)) ∧
    (cfg.validate st ≠ .pending → ∃ r, getTypedValue cfg st k = .ok r) := by
  refine ⟨?_, ?_, ?_⟩
  · intro v hv
    simp [getTypedValue, hv]
  · intro iss hi
    simp only [getTypedValue, hi]
    rw [getProp_mergeObj _ _ _ (keysOf_filter_issues_nodup st iss hnd),
      hasKey_filter_issues, getProp_filter_issues]
    rcases hk : JObj.hasKey st k with _ | _
    · simp [hk]
    · rcases hr : issuesReference iss k with _ | _
      · simp [hk, hr]
      · simp [hk, hr]
  · intro hp
    cases hv : cfg.validate st with
    | success v => exact ⟨JObj.getProp v k, by simp [getTypedValue, hv]⟩
    | failure iss =>
      exact ⟨JObj.getProp (JObj.mergeObj (defaultsOf cfg)
        (st.filter fun p => !issuesReference iss p.1)) k,
        by simp [getTypedValue, hv]⟩
    | pending => exact absurd hv hp

/-- C2 witness: over the boolean schema, a cache holding the invalid value
`state = 9` recovers the schema default `true` on read. -/
theorem claim2_witness :
    getTypedValue cfgB cBbad "state" = .ok (some (Val.vBool true)) := by
  have h := (claim2_read_path cfgB cBbad "state" (by decide)).2.1
    [⟨some ["state"], "expected boolean"⟩] rfl
  rw [h]
  rfl

/-- C3: `pickCookies` returns exactly the schema keys whose encoded name is
in the jar with JSON the parser accepts, each mapped to the parsed value;
keys absent from the jar, keys whose raw value fails to parse, and
non-schema keys are absent; the computation is total (never throws). The
`JSON.parse` builtin enters as the opaque `parse` (returning `none` where
`JSON.parse` would throw), the jar as the opaque `jar`. -/
theorem claim3_pick_exact (parse : String → Option Val)
    (jar : List Char → Option String) (validate : JObj → VRes) (k : String) :
    JObj.getProp (pickCookies parse jar validate) k =
      (if (getCachedKeysModel validate).contains k = true
       then (jar (pickCookieName k.toList)).bind parse
       else none) ∧
    JObj.hasKey (pickCookies parse jar validate) k =
      ((getCachedKeysModel validate).contains k &&
        ((jar (pickCookieName k.toList)).bind parse).isSome) := by
  constructor
  · unfold pickCookies
    rw [getProp_pickGo]
    rcases hc : (getCachedKeysModel validate).contains k with _ | _
    · simp [hc, JObj.getProp, List.find?]
    · cases hbind : (jar (pickCookieName k.toList)).bind parse with
      | none => simp [hc, hbind, JObj.getProp, List.find?]
      | some v => simp [hc, hbind]
  · unfold pickCookies
    rw [hasKey_pickGo]
    simp [JObj.hasKey]

/-- C4 counterexample: a schema whose validation of the write candidate is a
pending `Promise` does not make `set` raise: `#setValue` has no
`instanceof Promise` check, the Promise fails the `'value' in result` test
and the write is a silent no-op. -/
theorem claim4_counterexample :
    cfgP.validate (JObj.setKey cP "k" (some (Val.vNum 1))) = .pending ∧
    setValue cfgP cP "k" (Val.vNum 1) none = .ok ⟨cP, [], false⟩ :=
  ⟨rfl, rfl⟩

/-- C4 (amended): a pending (`Promise`) validation result makes the read
path (`#getTypedValue`) throw the explicit `Async validation not supported`
error, and that is the only error the read path raises; the write path
(`set`/`update` via `#setValue`) never raises — a pending result there is
treated like a validation failure and the write degrades to a silent
no-op. -/
theorem claim4_async (cfg : StoreCfg) (st : JObj) (k : String) :
    (cfg.validate st = .pending →
      getTypedValue cfg st k = .error "Async validation not supported") ∧
    (∀ e, getTypedValue cfg st k = .error e →
      cfg.validate st = .pending ∧ e = "Async validation not supported") ∧
    (∀ v opts, ∃ r, setValue cfg st k v opts = .ok r) := by
  refine ⟨?_, ?_, ?_⟩
  · intro h
    simp [getTypedValue, h]
  · intro e he
    cases hv : cfg.validate st with
    | success v => simp [getTypedValue, hv] at he
    | failure iss => simp [getTypedValue, hv] at he
    | pending =>
      simp only [getTypedValue, hv, Except.error.injEq] at he
      exact ⟨rfl, he.symm⟩
  · intro v opts
    exact setValue_total cfg st k v opts

/-- C4 witness: at the concrete pending schema, the read path raises the
async error while the write path returns normally. -/
theorem claim4_witness :
    getTypedValue cfgP cP "k" = .error "Async validation not supported" ∧
    setValue cfgP cP "k" (Val.vNum 5) none = .ok ⟨cP, [], false⟩ := by
  refine ⟨(claim4_async cfgP cP "k").1 rfl, ?_⟩
  obtain ⟨r, hr⟩ := (claim4_async cfgP cP "k").2.2 (Val.vNum 5) none
  exact rfl

/-- C5 counterexample: with the current cache already holding `state = true`,
`set('state', true)` performs no transport write even though validation of
the full post-encode candidate succeeds — the equality check short-circuits
before validation, so "write iff candidate validation succeeds" fails as a
universally quantified statement. -/
theorem claim5_counterexample :
    cfgB.validate (JObj.setKey cB "state" (some (Val.vBool true))) =
      .success [("state", some (Val.vBool true))] ∧
    storeSet cfgB cB "state" (Val.vBool true) = .ok ⟨cB, [], false⟩ :=
  ⟨rfl, rfl⟩

/-- C5 (amended): for a write that passes the key check and the equality
check, the transport is written iff validation of the full post-encode
candidate succeeds, and on validation failure the operation is a silent
no-op: nothing persisted, cache unchanged, no notification, no exception. -/
theorem claim5_validation_gate (cfg : StoreCfg) (st : JObj) (k : String) (v : Val)
    (opts : Option CookieAttrs)
    (hhas : storeHas cfg k = true)
    (hneq : eqCheckJS (JObj.getProp st k) v = false) :
    (∀ rv, cfg.validate (JObj.setKey st k (some (encodeForValidation cfg k v))) =
        .success rv →
      setValue cfg st k v opts =
        .ok ⟨JObj.setKey st k (JObj.getProp rv k), [(k, cfg.stringify v, opts)], true⟩) ∧
    ((∀ rv, cfg.validate (JObj.setKey st k (some (encodeForValidation cfg k v))) ≠
        .success rv) →
      setValue cfg st k v opts = .ok ⟨st, [], false⟩) :=
  ⟨fun rv hv => setValue_success cfg st k v opts rv hhas hneq hv,
   fun hnv => setValue_nosuccess cfg st k v opts hhas hneq hnv⟩

/-- C5 witness: over the boolean schema, a validating write persists and a
failing one (a number where a boolean is expected) is a silent no-op. -/
theorem claim5_witness :
    setValue cfgB cB "state" (Val.vBool false) none =
      .ok ⟨[("state", some (Val.vBool false))],
        [("state", stringifyLite (Val.vBool false), none)], true⟩ ∧
    setValue cfgB cB "state" (Val.vNum 3) none = .ok ⟨cB, [], false⟩ := by
  constructor
  · exact (claim5_validation_gate cfgB cB "state" (Val.vBool false) none rfl rfl).1
      [("state", some (Val.vBool false))] rfl
  · exact (claim5_validation_gate cfgB cB "state" (Val.vNum 3) none rfl rfl).2
      (fun rv h => nomatch h)

/-- C6 counterexample: under a schema that transforms the stored value
(validation maps key `k` to the constant 2), two consecutive
`set('k', 1)` calls each write and notify — the committed cache value 2
never equals the incoming 1, so the equality suppression never fires. -/
theorem claim6_counterexample :
    writesOfSetTwice cfgT cT "k" (Val.vNum 1) = 2 ∧
    notifsOfSetTwice cfgT cT "k" (Val.vNum 1) = 2 ∧
    writesOfSetTwice cfgT cT "k" (Val.vNum 1) ≠ 1 := by
  refine ⟨rfl, rfl, by decide⟩

/-- C6 (amended): two consecutive `set(k, v)` calls produce exactly one
transport write and one notification provided the first call actually
writes (key known, value not already equal, candidate validates) and the
validated value committed for `k` is `v` itself (no schema transform on
that key); the second call is then suppressed by the equality check —
strict equality for primitives, `dequal` otherwise — which holds of `v`
against itself (`hrefl`; true of every real JavaScript value). -/
theorem claim6_set_idempotent (cfg : StoreCfg) (st : JObj) (k : String) (v : Val)
    (rv : JObj)
    (hhas : storeHas cfg k = true)
    (hneq : eqCheckJS (JObj.getProp st k) v = false)
    (hval : cfg.validate (JObj.setKey st k (some (encodeForValidation cfg k v))) =
      .success rv)
    (hfix : JObj.getProp rv k = some v)
    (hrefl : eqCheckJS (some v) v = true) :
    setTwice cfg st k v =
      .ok (⟨JObj.setKey st k (some v), [(k, cfg.stringify v, none)], true⟩,
        ⟨JObj.setKey st k (some v), [], false⟩) ∧
    writesOfSetTwice cfg st k v = 1 ∧
    notifsOfSetTwice cfg st k v = 1 := by
  have h1 : storeSet cfg st k v =
      .ok ⟨JObj.setKey st k (some v), [(k, cfg.stringify v, none)], true⟩ := by
    have h := setValue_success cfg st k v none rv hhas hneq hval
    rw [hfix] at h
    exact h
  have h2 : storeSet cfg (JObj.setKey st k (some v)) k v =
      .ok ⟨JObj.setKey st k (some v), [], false⟩ := by
    apply setValue_eqskip
    rw [getProp_setKey_self]
    exact hrefl
  have hst : setTwice cfg st k v =
      .ok (⟨JObj.setKey st k (some v), [(k, cfg.stringify v, none)], true⟩,
        ⟨JObj.setKey st k (some v), [], false⟩) := by
    simp only [setTwice, h1, h2]
  refine ⟨hst, ?_, ?_⟩
  · simp [writesOfSetTwice, hst]
  · simp [notifsOfSetTwice, hst]

/-- C6 witness: over the boolean schema (identity on valid booleans), two
consecutive `set('state', false)` calls yield one write and one
notification. -/
theorem claim6_witness :
    writesOfSetTwice cfgB cB "state" (Val.vBool false) = 1 ∧
    notifsOfSetTwice cfgB cB "state" (Val.vBool false) = 1 := by
  have h := claim6_set_idempotent cfgB cB "state" (Val.vBool false)
    [("state", some (Val.vBool false))] rfl rfl rfl rfl rfl
  exact ⟨h.2.1, h.2.2⟩

/-- C7: on every successful write the string persisted to the transport is
the serialization of the original input `v` — pre-codec-encode (the
candidate was built from `encodeForValidation cfg k v`, but the write
carries `cfg.stringify v`) and pre-schema-transform — while the cache is
committed to `result.value[k]`, the validated value. -/
theorem claim7_persist_pre_encode (cfg : StoreCfg) (st : JObj) (k : String)
    (v : Val) (opts : Option CookieAttrs) (rv : JObj)
    (hhas : storeHas cfg k = true)
    (hneq : eqCheckJS (JObj.getProp st k) v = false)
    (hval : cfg.validate (JObj.setKey st k (some (encodeForValidation cfg k v))) =
      .success rv) :
    setValue cfg st k v opts =
      .ok ⟨JObj.setKey st k (JObj.getProp rv k),
        [(k, cfg.stringify v, opts)], true⟩ :=
  setValue_success cfg st k v opts rv hhas hneq hval

/-- C7 witness: with a codec encoder that turns the number 7 into the string
"7", the persisted payload is the serialization of the original `7` while
the cache commits the validated (encoded) `"7"`. -/
theorem claim7_witness :
    setValue cfgEnc cEnc "k" (Val.vNum 7) none =
      .ok ⟨[("k", some (Val.vStr "7"))],
        [("k", stringifyLite (Val.vNum 7), none)], true⟩ :=
  claim7_persist_pre_encode cfgEnc cEnc "k" (Val.vNum 7) none
    [("k", some (Val.vStr "7"))] rfl rfl rfl

/-- C8 counterexample: `toString` is not a key of the boolean schema, yet
`has('toString')` is true — `key in this.#schemaShape` consults
`Object.prototype` — and `set('toString', 5)` passes the key gate, passes
the equality gate, validates (the schema strips the unknown key and
succeeds), performs a transport write, and commits
`cache['toString'] = result.value['toString']`, leaving a non-schema own
key in the cache. -/
theorem claim8_counterexample :
    (extractSchemaInfoKeys cfgB.validate).contains "toString" = false ∧
    storeHas cfgB "toString" = true ∧
    setValue cfgB cB "toString" (Val.vNum 5) none =
      .ok ⟨[("state", some (Val.vBool true)), ("toString", none)],
        [("toString", stringifyLite (Val.vNum 5), none)], true⟩ ∧
    JObj.hasKey [("state", some (Val.vBool true)), ("toString", none)]
      "toString" = true := by
  refine ⟨by decide, by decide, rfl, by decide⟩

/-- C8 (amended): for a key that is neither in `SchemaInfo.keys` nor an
`Object.prototype` property name, `has` is false and `set`/`update` is a
complete no-op (no write, no cache change, no notification, no error); and
for a Store whose cache initially contains only schema keys, after any
sequence of `set`/`update` calls every cache key is a schema key or an
`Object.prototype` property name. -/
theorem claim8_unknown_key_invariant (cfg : StoreCfg) (k : String)
    (hk : (extractSchemaInfoKeys cfg.validate).contains k = false)
    (hp : objectPrototypeKeys.contains k = false) :
    storeHas cfg k = false ∧
    (∀ st v opts, setValue cfg st k v opts = .ok ⟨st, [], false⟩) ∧
    (∀ st ops,
      (∀ k' ∈ JObj.keysOf st, (extractSchemaInfoKeys cfg.validate).contains k' = true) →
      ∀ k' ∈ JObj.keysOf (applyOps cfg st ops),
        ((extractSchemaInfoKeys cfg.validate).contains k' ||
          objectPrototypeKeys.contains k') = true) := by
  have hhas : storeHas cfg k = false := by
    simp only [storeHas, hk, hp, Bool.or_self]
  refine ⟨hhas, fun st v opts => setValue_nokey cfg st k v opts hhas, ?_⟩
  have main : ∀ ops st,
      (∀ k' ∈ JObj.keysOf st, ((extractSchemaInfoKeys cfg.validate).contains k' ||
        objectPrototypeKeys.contains k') = true) →
      ∀ k' ∈ JObj.keysOf (applyOps cfg st ops),
        ((extractSchemaInfoKeys cfg.validate).contains k' ||
          objectPrototypeKeys.contains k') = true := by
    intro ops
    induction ops with
    | nil => exact fun st hinv k' hk' => hinv k' hk'
    | cons op rest ih =>
      intro st hinv k' hk'
      obtain ⟨r, hr⟩ := setValue_total cfg st op.1 op.2.1 op.2.2
      have hstep : applyOps cfg st (op :: rest) = applyOps cfg r.cache rest := by
        simp [applyOps, hr]
      rw [hstep] at hk'
      refine ih r.cache ?_ k' hk'
      intro k'' hk''
      rcases setValue_cache_keys cfg st op.1 op.2.1 op.2.2 r hr k'' hk'' with h | h
      · exact hinv k'' h
      · rw [h.1]
        have hs := h.2
        rw [storeHas] at hs
        exact hs
  intro st ops hinv
  refine main ops st ?_
  intro k' hk'
  rw [hinv k' hk']
  simp

/-- C8 witness: `nope` is neither a schema key nor an `Object.prototype`
property name: `has` is false and a write to it is a complete no-op. -/
theorem claim8_witness :
    storeHas cfgB "nope" = false ∧
    setValue cfgB cB "nope" (Val.vNum 1) none = .ok ⟨cB, [], false⟩ := by
  have h := claim8_unknown_key_invariant cfgB "nope" (by decide) (by decide)
  exact ⟨h.1, h.2.1 cB (Val.vNum 1) none⟩

/-- C9: both `extractSchemaInfo` and the server-side `getCachedKeys` compute
`SchemaInfo.keys` as the key set of the value obtained by validating an
empty candidate, and the empty list when that validation does not succeed. -/
theorem claim9_schema_keys (validate : JObj → VRes) :
    extractSchemaInfoKeys validate = getCachedKeysModel validate ∧
    (∀ v, validate [] = .success v →
      extractSchemaInfoKeys validate = JObj.keysOf v) ∧
    ((∀ v, validate [] ≠ .success v) → extractSchemaInfoKeys validate = []) := by
  refine ⟨rfl, ?_, ?_⟩
  · intro v hv
    simp [extractSchemaInfoKeys, hv]
  · intro h
    cases hv : validate [] with
    | success v => exact absurd hv (h v)
    | failure iss => simp [extractSchemaInfoKeys, hv]
    | pending => simp [extractSchemaInfoKeys, hv]

/-- C9 witness: the boolean schema's key set is `["state"]`, the key set of
its defaults. -/
theorem claim9_witness : extractSchemaInfoKeys cfgB.validate = ["state"] := by
  have h := (claim9_schema_keys cfgB.validate).2.1
    [("state", some (Val.vBool true))] rfl
  exact h

/-- C10: for a schema containing a key literally named `update`, reading the
facade's `update` property always yields the Store's attribute-aware update
function (the reserved-name check precedes the schema-key check, so the
cached cookie value is unreachable by read), while assigning to `update`
routes to `Store.set` and mutates the cookie. -/
theorem claim10_facade_update (cfg : StoreCfg) (st : JObj) (v : Val)
    (hhas : storeHas cfg "update" = true) :
    facadeGet cfg st "update" = .updateFn ∧
    (∀ r, facadeGet cfg st "update" ≠ .cookieValue r) ∧
    facadeSetProp cfg st "update" v = .storeWrite (storeSet cfg st "update" v) := by
  refine ⟨rfl, fun r h => by simp [facadeGet] at h, ?_⟩
  simp [facadeSetProp, hhas]

/-- C10 witness: the concrete schema with key `update`: the facade read
returns the update function, the facade write routes to the store's set. -/
theorem claim10_witness :
    facadeGet cfgU cU "update" = .updateFn ∧
    facadeSetProp cfgU cU "update" (Val.vNum 5) =
      .storeWrite (storeSet cfgU cU "update" (Val.vNum 5)) := by
  have h := claim10_facade_update cfgU cU (Val.vNum 5) rfl
  exact ⟨h.1, h.2.2⟩

end SSRCookies
